import Mathlib

/-!
# RevvedFinder (`lib/revvedfinder.js`)

A shallow embedding of the revved-file resolver of grunt-usemin and the
properties of its specification.

Modelling conventions.

* A JavaScript string is a list of characters (`Str`).  Only `'/'`, `'.'`,
  `':'`, the hexadecimal digits and the regular-expression metacharacters are
  ever inspected, so the choice of character type does not matter.
* The functions of Node's `path` module are the POSIX ones (`path.posix`):
  `normalize`, `join`, `dirname`, `basename`, with `/` as the only separator.
* The locator is either a mapping from strings to strings, read as a dictionary
  (`Str → Option Str`), or an expand function (`Str → List Str`), taken to be a
  pure function of the pattern for the duration of one call.  The properties a
  plain object inherits from `Object.prototype` are not entries of the
  dictionary; `getCandidatesFromPlainObject` is the mapping strategy with these
  properties taken into account, and it agrees with `getCandidatesFromMapping`
  unless a looked-up key names one of them.
* A test on a JavaScript value (`if (x)`, `!x`) fails for `undefined` and for
  the empty string.
* `debug(...)` calls only log and are left out.
-/

namespace RevvedFinder

/-- A JavaScript string, as the list of its characters. -/
abbrev Str := List Char

/-! ## Node's `path` module, POSIX flavour -/

/-- The string method `split('/')`: the pieces between consecutive separators. -/
def splitSlash : Str → List Str
  | [] => [[]]
  | c :: cs =>
    if c = '/' then [] :: splitSlash cs
    else
      match splitSlash cs with
      | [] => [[c]]
      | seg :: rest => (c :: seg) :: rest

/-- The array method `join('/')`. -/
def joinSlash : List Str → Str
  | [] => []
  | [s] => s
  | s :: t :: rest => s ++ '/' :: joinSlash (t :: rest)

/-- One step of the right-to-left loop of `normalizeArray`: the state is the
list of kept parts and the counter `up` of pending `..`. -/
def normalizeStep (last : Str) (st : List Str × Nat) : List Str × Nat :=
  if last = ['.'] then st
  else if last = ['.', '.'] then (st.1, st.2 + 1)
  else if 0 < st.2 then (st.1, st.2 - 1)
  else (last :: st.1, st.2)

/-- Resolution of `.` and `..` elements of a path array; leading `..` are
restored when the path may go above its root. -/
def normalizeArray (parts : List Str) (allowAboveRoot : Bool) : List Str :=
  let st := parts.foldr normalizeStep ([], 0)
  if allowAboveRoot then List.replicate st.2 ['.', '.'] ++ st.1 else st.1

/-- The function `path.normalize`. -/
def normalize (path : Str) : Str :=
  let isAbsolute : Bool := path.head? = some '/'
  let trailingSlash : Bool := path.getLast? = some '/'
  let p := joinSlash (normalizeArray ((splitSlash path).filter (fun s => s ≠ [])) (!isAbsolute))
  let p := if p = [] ∧ isAbsolute = false then ['.'] else p
  let p := if p ≠ [] ∧ trailingSlash = true then p ++ ['/'] else p
  (if isAbsolute then ['/'] else []) ++ p

/-- The function `path.join`: the non-empty arguments joined by `/`, normalized. -/
def join (paths : List Str) : Str :=
  normalize (joinSlash (paths.filter (fun s => s ≠ [])))

/-- The function `path.basename` (one argument): the last segment of the path,
trailing separators ignored. -/
def basename (path : Str) : Str :=
  ((path.reverse.dropWhile (fun c => c = '/')).takeWhile (fun c => c ≠ '/')).reverse

/-- The function `path.dirname`: what precedes the separator in front of the
last segment, trailing separators ignored; `.` when there is no such separator
(`/` when the path starts with one).  The scan stops at index 1, so a path that
starts with exactly two separators followed by one segment has dirname `//`. -/
def dirname (path : Str) : Str :=
  match path with
  | [] => ['.']
  | c :: rest =>
    let hasRoot : Bool := c = '/'
    match ((rest.reverse.dropWhile (fun x => x = '/')).dropWhile (fun x => x ≠ '/')) with
    | [] => if hasRoot then ['/'] else ['.']
    | _ :: before =>
      if hasRoot ∧ before = [] then ['/', '/'] else c :: before.reverse

/-! ## Regular expressions of the module -/

/-- The characters of the class `[.?*+\^$\[\]\\(){}|\-]` that `regexpQuote` escapes. -/
def regexpSpecial : List Char :=
  ['.', '?', '*', '+', '^', '$', '[', ']', '\\', '(', ')', '\x7b', '\x7d', '|', '-']

/-- The function `regexpQuote`: every special character gets a backslash in front. -/
def regexpQuote (str : Str) : Str :=
  str.flatMap (fun c => if c ∈ regexpSpecial then ['\\', c] else [c])

/-- Reading of a pattern source made of plain characters and escaped special
characters only: the literal text it denotes.  A source with an unescaped
special character, or a backslash in front of anything else, is outside this
fragment (`none`). -/
def literalOfPattern : Str → Option Str
  | [] => some []
  | c :: cs =>
    if c = '\\' then
      match cs with
      | [] => none
      | d :: ds =>
        if d ∈ regexpSpecial then (literalOfPattern ds).map (fun l => d :: l) else none
    else if c ∈ regexpSpecial then none
    else (literalOfPattern cs).map (fun l => c :: l)

/-- The class `[0-9a-fA-F]`. -/
def isHexDigit (c : Char) : Bool :=
  ('0' ≤ c && c ≤ '9') || ('a' ≤ c && c ≤ 'f') || ('A' ≤ c && c ≤ 'F')

/-- An attempt to match `[0-9a-fA-F]+\.<lit>$` starting at the head of the input:
one hex digit, then either the rest of the pattern up to the end of the input or
a further iteration of `+`. -/
def matchHere (lit : Str) : Str → Bool
  | [] => false
  | c :: cs => isHexDigit c && (decide (cs = '.' :: lit) || matchHere lit cs)

/-- The unanchored search of `String.prototype.match`: the attempt is made at
every start position. -/
def matchRx (lit : Str) : Str → Bool
  | [] => false
  | c :: cs => matchHere lit (c :: cs) || matchRx lit cs

/-- The test `f.match(revvedRx)` with
`revvedRx = new RegExp('[0-9a-fA-F]+\\.' + regexpQuote(basename) + '$')`. -/
def revvedRx (basename : Str) (f : Str) : Bool :=
  match literalOfPattern (regexpQuote basename) with
  | some lit => matchRx lit f
  | none => false

/-- The test `ofile.match(/:\/\//)`. -/
def matchScheme : Str → Bool
  | [] => false
  | c :: cs => (c :: cs).take 3 = [':', '/', '/'] || matchScheme cs

/-! ## The finder -/

/-- The locator handed to the constructor: a mapping from files to their revved
versions, or a function listing the files that match a pattern.  The
constructor stores a function in `expandfn` and anything else in `mapping`. -/
inductive Locator where
  | mapping (m : Str → Option Str)
  | expandfn (e : Str → List Str)

/-- The second argument of `find`: one directory or an array of directories. -/
inductive SearchDirs where
  | str (s : Str)
  | list (l : List Str)

/-- The array `searchPaths` of `find`: a string is wrapped in a one-element array. -/
def searchPathsOf : SearchDirs → List Str
  | .str s => [s]
  | .list l => l

/-- The function `getCandidatesFromMapping`, with `self.mapping[key]` read as a
dictionary lookup. -/
def getCandidatesFromMapping (mapping : Str → Option Str) (file : Str)
    (searchPaths : List Str) : List Str :=
  let dir := dirname file
  searchPaths.foldl (fun candidates sp =>
    let key := normalize (join [sp, file])
    match mapping key with
    | some v =>
      if v ≠ [] then
        let cfile := basename v
        candidates ++ [dir ++ '/' :: cfile]
      else candidates
    | none => candidates) []

/-- The names of the properties that every plain object inherits from
`Object.prototype`. -/
def objectPrototypeKeys : List Str :=
  ["constructor".toList, "toString".toList, "toLocaleString".toList, "valueOf".toList,
   "hasOwnProperty".toList, "isPrototypeOf".toList, "propertyIsEnumerable".toList,
   "__proto__".toList, "__defineGetter__".toList, "__defineSetter__".toList,
   "__lookupGetter__".toList, "__lookupSetter__".toList]

/-- The value of the expression `self.mapping[key]` on a plain object with string
values: the string stored under the key, an inherited function or object, or
`undefined`. -/
inductive Property where
  | undefined
  | string (v : Str)
  | inherited
  deriving DecidableEq

/-- The expression `self.mapping[key]` on a plain object: an entry of the object
comes first, then the properties of `Object.prototype`. -/
def getProperty (mapping : Str → Option Str) (key : Str) : Property :=
  match mapping key with
  | some v => .string v
  | none => if key ∈ objectPrototypeKeys then .inherited else .undefined

/-- The function `getCandidatesFromMapping` run on a plain object.  An inherited
property is truthy and is not a string: `path.basename` raises a `TypeError` on
it and the call is abandoned, which `none` stands for. -/
def getCandidatesFromPlainObject (mapping : Str → Option Str) (file : Str)
    (searchPaths : List Str) : Option (List Str) :=
  let dir := dirname file
  searchPaths.foldl (fun acc sp =>
    match acc with
    | none => none
    | some candidates =>
      let key := normalize (join [sp, file])
      match getProperty mapping key with
      | .undefined => some candidates
      | .string v =>
        if v ≠ [] then
          let cfile := basename v
          some (candidates ++ [dir ++ '/' :: cfile])
        else some candidates
      | .inherited => none) (some [])

/-- The pattern `searchString` handed to the expand function for one search path. -/
def searchString (sp file : Str) : Str :=
  join [sp, dirname file, '*' :: '.' :: basename file]

/-- The function `getCandidatesFromFS`. -/
def getCandidatesFromFS (expandfn : Str → List Str) (file : Str)
    (searchPaths : List Str) : List Str :=
  let dir := dirname file
  searchPaths.foldl (fun candidates sp =>
    let files := expandfn (searchString sp file)
    let goodFiles := files.filter (revvedRx (basename file))
    goodFiles.foldl (fun candidates gf =>
      let goodFileName := basename gf
      if '/' ∉ file then candidates ++ [goodFileName]
      else candidates ++ [dir ++ '/' :: goodFileName]) candidates) []

/-- The function `getRevvedCandidates`. -/
def getRevvedCandidates (locator : Locator) (file : Str) (searchPaths : List Str) :
    List Str :=
  match locator with
  | .mapping m => getCandidatesFromMapping m file searchPaths
  | .expandfn e => getCandidatesFromFS e file searchPaths

/-- The function `find`.  The test `!filepath` holds for `undefined` (no
candidate) and for the empty string. -/
def find (locator : Locator) (ofile : Str) (searchDirs : SearchDirs) : Str :=
  let searchPaths := searchPathsOf searchDirs
  if matchScheme ofile || decide (ofile = []) then ofile
  else
    let absolute : Bool := ofile.head? = some '/'
    let header := if absolute then ofile.takeWhile (fun c => c = '/') else []
    let file := if absolute then ofile.dropWhile (fun c => c = '/') else ofile
    let filepaths := getRevvedCandidates locator file searchPaths
    match filepaths.head? with
    | none => ofile
    | some filepath =>
      if filepath = [] then ofile
      else if absolute then header ++ filepath
      else filepath

/-- The mapping given by an object literal, as the list of its key/value pairs in
source order: when a key is repeated its last value is the one kept. -/
def mappingOf (entries : List (Str × Str)) : Str → Option Str :=
  fun key => entries.reverse.lookup key

/-- The mapping of the examples: `dist/images/pic.png` has been renamed
`dist/images/2123.pic.png`. -/
def picMapping : Str → Option Str :=
  mappingOf [("dist/images/pic.png".toList, "dist/images/2123.pic.png".toList)]

/-- A mapping without any entry. -/
def emptyMapping : Str → Option Str := mappingOf []

/-- The expand function of the specification's filesystem example: it knows one
revved style sheet under `dist/css` and answers only the pattern
`dist/css/*.style.css`. -/
def cssExpand : Str → List Str := fun pattern =>
  if pattern = "dist/css/*.style.css".toList then ["dist/css/9f8a.style.css".toList] else []

/-- An expand function over three directories: `tmp` holds a file that does not
look revved, `dist` holds three files of which the last two look revved, and
`other` holds one revved file. -/
def treeExpand : Str → List Str := fun pattern =>
  if pattern = "tmp/images/*.pic.png".toList then ["tmp/images/big.pic.png".toList]
  else if pattern = "dist/images/*.pic.png".toList then
    ["dist/images/zz.pic.png".toList, "dist/images/b2.pic.png".toList,
     "dist/images/a1.pic.png".toList]
  else if pattern = "other/images/*.pic.png".toList then ["other/images/ffff.pic.png".toList]
  else []

/-- The path `g` ends with one or more hexadecimal digits, a dot, and `b`. -/
def LooksRevved (b g : Str) : Prop :=
  ∃ pre hs : Str, hs ≠ [] ∧ (∀ c ∈ hs, isHexDigit c = true) ∧ g = pre ++ hs ++ '.' :: b

/-- A mapping for a file of the current directory: `pic.png` has been renamed
`2123.pic.png`. -/
def cwdMapping : Str → Option Str :=
  mappingOf [("pic.png".toList, "2123.pic.png".toList)]

/-- An expand function that reports one path, with a trailing separator. -/
def dirExpand : Str → List Str := fun _ => ["dist/9f8a.style.css/".toList]

/-! ## Auxiliary facts -/

/-- A loop that only pushes onto its accumulator is a `flatMap`. -/
theorem foldl_push_eq {α β : Type} (f : List β → α → List β)
    (hf : ∀ acc x, f acc x = acc ++ f [] x) (l : List α) (init : List β) :
    l.foldl f init = init ++ l.flatMap (fun x => f [] x) := by
  induction l generalizing init with
  | nil => simp
  | cons a t ih => rw [List.foldl_cons, ih, hf init a]; simp [List.flatMap]

/-- The candidates of the mapping strategy are collected directory by directory. -/
theorem getCandidatesFromMapping_eq_flatMap (m : Str → Option Str) (file : Str)
    (sps : List Str) :
    getCandidatesFromMapping m file sps
      = sps.flatMap (fun sp => getCandidatesFromMapping m file [sp]) := by
  unfold getCandidatesFromMapping
  simp only []
  rw [foldl_push_eq]
  · simp [List.foldl]
  · intro acc sp
    cases m (normalize (join [sp, file])) with
    | none => simp
    | some v => by_cases hv : v = [] <;> simp [hv]

/-- The candidates of one directory in filesystem mode: the revved-looking files,
in the order of the expansion, each reduced to its basename and given the
directory of `file` when `file` has one. -/
theorem getCandidatesFromFS_single (e : Str → List Str) (file sp : Str) :
    getCandidatesFromFS e file [sp]
      = ((e (searchString sp file)).filter (revvedRx (basename file))).map
          (fun gf => if '/' ∉ file then basename gf
            else dirname file ++ '/' :: basename gf) := by
  unfold getCandidatesFromFS
  simp only [List.foldl_cons, List.foldl_nil]
  rw [foldl_push_eq]
  · simp only [List.nil_append]
    generalize (e (searchString sp file)).filter (revvedRx (basename file)) = gs
    induction gs with
    | nil => rfl
    | cons g t ih => by_cases h : '/' ∈ file <;> simp [List.flatMap, h] at ih ⊢ <;> exact ih
  · intro acc gf
    by_cases h : '/' ∈ file <;> simp [h]

/-- The candidates of the filesystem strategy are collected directory by directory. -/
theorem getCandidatesFromFS_eq_flatMap (e : Str → List Str) (file : Str)
    (sps : List Str) :
    getCandidatesFromFS e file sps
      = sps.flatMap (fun sp => getCandidatesFromFS e file [sp]) := by
  have key : ∀ (acc : List Str) (gs : List Str),
      gs.foldl (fun candidates gf =>
        if '/' ∉ file then candidates ++ [basename gf]
        else candidates ++ [dirname file ++ '/' :: basename gf]) acc
      = acc ++ gs.foldl (fun candidates gf =>
        if '/' ∉ file then candidates ++ [basename gf]
        else candidates ++ [dirname file ++ '/' :: basename gf]) [] := by
    intro acc gs
    have hf : ∀ (a : List Str) (g : Str),
        (if '/' ∉ file then a ++ [basename g] else a ++ [dirname file ++ '/' :: basename g])
        = a ++ (if '/' ∉ file then [] ++ [basename g]
            else [] ++ [dirname file ++ '/' :: basename g]) := by
      intro a g; by_cases h : '/' ∈ file <;> simp [h]
    rw [foldl_push_eq _ hf gs acc, foldl_push_eq _ hf gs []]
    simp
  unfold getCandidatesFromFS
  simp only []
  rw [foldl_push_eq]
  · simp [List.foldl]
  · intro acc sp
    exact key acc _

/-- Whatever the locator, the candidates are collected directory by directory, in
the order of the search paths. -/
theorem getRevvedCandidates_eq_flatMap (loc : Locator) (file : Str) (sps : List Str) :
    getRevvedCandidates loc file sps
      = sps.flatMap (fun sp => getRevvedCandidates loc file [sp]) := by
  cases loc with
  | mapping m => exact getCandidatesFromMapping_eq_flatMap m file sps
  | expandfn e => exact getCandidatesFromFS_eq_flatMap e file sps

/-- The scheme test succeeds exactly on the strings that contain `://`. -/
theorem matchScheme_iff (s : Str) : matchScheme s = true ↔ [':', '/', '/'] <:+: s := by
  induction s with
  | nil => simp [matchScheme]
  | cons c cs ih =>
    rw [matchScheme, Bool.or_eq_true, ih, List.infix_cons_iff, decide_eq_true_eq]
    constructor
    · rintro (h | h)
      · left
        refine ⟨(c :: cs).drop 3, ?_⟩
        conv_rhs => rw [← List.take_append_drop 3 (c :: cs)]
        rw [h]
      · right; exact h
    · rintro (⟨t, ht⟩ | h)
      · left; rw [← ht]; rfl
      · right; exact h

/-- Stripping the leading separators of a path that has none changes nothing. -/
theorem dropWhile_slash_of_head (s : Str) (h : s.head? ≠ some '/') :
    s.dropWhile (fun c => c = '/') = s ∧ s.takeWhile (fun c => c = '/') = [] := by
  cases s with
  | nil => simp
  | cons c cs =>
    have hc : c ≠ '/' := by simpa using h
    simp [List.dropWhile, List.takeWhile, hc]

/-- A normal form of `find`: the candidates are computed for the reference without
its leading separators, and the separators are put back in front of the first one. -/
theorem find_eq (loc : Locator) (ofile : Str) (sd : SearchDirs) :
    find loc ofile sd =
      if matchScheme ofile = true ∨ ofile = [] then ofile
      else
        match (getRevvedCandidates loc (ofile.dropWhile (fun c => c = '/'))
            (searchPathsOf sd)).head? with
        | none => ofile
        | some filepath =>
          if filepath = [] then ofile
          else ofile.takeWhile (fun c => c = '/') ++ filepath := by
  unfold find
  by_cases h0 : matchScheme ofile = true ∨ ofile = []
  · rcases h0 with h0 | h0 <;> simp [h0]
  · have h1 : matchScheme ofile = false := by
      cases hm : matchScheme ofile with
      | false => rfl
      | true => exact absurd (Or.inl hm) h0
    have h2 : ofile ≠ [] := fun h => h0 (Or.inr h)
    by_cases ha : ofile.head? = some '/'
    · simp [h1, h2, ha]
    · obtain ⟨hd, ht⟩ := dropWhile_slash_of_head ofile ha
      rw [hd, ht]
      simp [h1, h2, ha]

/-- A run of separators in front of a path without leading separator is what
`takeWhile` and `dropWhile` split off. -/
theorem span_slash_append (p r : Str) (hp : ∀ c ∈ p, c = '/') (hr : r.head? ≠ some '/') :
    (p ++ r).dropWhile (fun c => c = '/') = r ∧ (p ++ r).takeWhile (fun c => c = '/') = p := by
  induction p with
  | nil => simpa using dropWhile_slash_of_head r hr
  | cons c t ih =>
    have hc : c = '/' := hp c (List.mem_cons_self _ _)
    have ht := ih (fun x hx => hp x (List.mem_cons_of_mem _ hx))
    subst hc
    simp [List.dropWhile, List.takeWhile, ht.1, ht.2]

/-- Separators in front of a string do not create an occurrence of `://`. -/
theorem matchScheme_slash_append (p r : Str) (hp : ∀ c ∈ p, c = '/') :
    matchScheme (p ++ r) = matchScheme r := by
  induction p with
  | nil => rfl
  | cons c t ih =>
    have hc : c = '/' := hp c (List.mem_cons_self _ _)
    subst hc
    rw [List.cons_append, matchScheme, ih (fun x hx => hp x (List.mem_cons_of_mem _ hx))]
    simp

/-- Quoting produces a pattern of the literal fragment, and it denotes the quoted
string itself. -/
theorem literalOfPattern_regexpQuote (s : Str) :
    literalOfPattern (regexpQuote s) = some s := by
  induction s with
  | nil => rfl
  | cons c t ih =>
    have hq : regexpQuote (c :: t)
        = (if c ∈ regexpSpecial then ['\\', c] else [c]) ++ regexpQuote t := by
      simp [regexpQuote, List.flatMap]
    rw [hq]
    by_cases hc : c ∈ regexpSpecial
    · rw [if_pos hc]
      show literalOfPattern ('\\' :: c :: regexpQuote t) = some (c :: t)
      rw [literalOfPattern]
      simp [hc, ih]
    · have hb : c ≠ '\\' := by
        intro h; apply hc; rw [h]; decide
      rw [if_neg hc]
      show literalOfPattern (c :: regexpQuote t) = some (c :: t)
      rw [literalOfPattern.eq_def]
      simp [hb, hc, ih]

/-- An anchored attempt succeeds exactly on a non-empty run of hexadecimal digits
followed by a dot and the literal. -/
theorem matchHere_iff (lit f : Str) :
    matchHere lit f = true ↔
      ∃ hs : Str, hs ≠ [] ∧ (∀ c ∈ hs, isHexDigit c = true) ∧ f = hs ++ '.' :: lit := by
  induction f with
  | nil => simp [matchHere]
  | cons c cs ih =>
    rw [matchHere, Bool.and_eq_true, Bool.or_eq_true, decide_eq_true_eq, ih]
    constructor
    · rintro ⟨hc, h | ⟨hs, _, hall, hcs⟩⟩
      · exact ⟨[c], by simp, by simpa using hc, by simp [h]⟩
      · refine ⟨c :: hs, by simp, ?_, by simp [hcs]⟩
        intro x hx
        rcases List.mem_cons.1 hx with rfl | hx
        · exact hc
        · exact hall x hx
    · rintro ⟨hs, hne, hall, hf⟩
      cases hs with
      | nil => exact absurd rfl hne
      | cons h t =>
        rw [List.cons_append, List.cons.injEq] at hf
        obtain ⟨rfl, hcs⟩ := hf
        refine ⟨hall c (List.mem_cons_self _ _), ?_⟩
        cases t with
        | nil => left; simpa using hcs
        | cons x t' =>
          right
          exact ⟨x :: t', by simp, fun y hy => hall y (List.mem_cons_of_mem _ hy), hcs⟩

/-- The unanchored search succeeds exactly on the paths that end with hexadecimal
digits, a dot and the literal. -/
theorem matchRx_iff (lit f : Str) : matchRx lit f = true ↔ LooksRevved lit f := by
  unfold LooksRevved
  induction f with
  | nil => simp [matchRx]
  | cons c cs ih =>
    rw [matchRx, Bool.or_eq_true, ih, matchHere_iff]
    constructor
    · rintro (⟨hs, hne, hall, hf⟩ | ⟨pre, hs, hne, hall, hf⟩)
      · exact ⟨[], hs, hne, hall, by simpa using hf⟩
      · exact ⟨c :: pre, hs, hne, hall, by simp [hf]⟩
    · rintro ⟨pre, hs, hne, hall, hf⟩
      cases pre with
      | nil => left; exact ⟨hs, hne, hall, by simpa using hf⟩
      | cons x pre' =>
        right
        rw [List.cons_append, List.cons_append, List.cons.injEq] at hf
        exact ⟨pre', hs, hne, hall, hf.2⟩

/-- The filter of `getCandidatesFromFS` keeps exactly the paths that end with
hexadecimal digits, a dot and the basename. -/
theorem revvedRx_iff (b f : Str) : revvedRx b f = true ↔ LooksRevved b f := by
  unfold revvedRx
  rw [literalOfPattern_regexpQuote]
  exact matchRx_iff b f

/-- The basename of a path without separator is the path. -/
theorem basename_of_no_slash (r : Str) (h : '/' ∉ r) : basename r = r := by
  unfold basename
  have h1 : r.reverse.dropWhile (fun c => decide (c = '/')) = r.reverse := by
    cases hr : r.reverse with
    | nil => rfl
    | cons x t =>
      have hx : x ≠ '/' := by
        intro hx
        apply h
        have : x ∈ r.reverse := by rw [hr]; exact List.mem_cons_self _ _
        rw [← hx]; exact List.mem_reverse.1 this
      simp [List.dropWhile, hx]
  have h2 : r.reverse.takeWhile (fun c => decide (c ≠ '/')) = r.reverse := by
    rw [List.takeWhile_eq_self_iff]
    intro x hx
    have hx' : x ∈ r := List.mem_reverse.1 hx
    have : x ≠ '/' := fun e => h (e ▸ hx')
    simpa using this
  rw [h1, h2, List.reverse_reverse]

/-- The basename of `d/x`, for a non-empty segment `x`, is `x`. -/
theorem basename_append_segment (d x : Str) (hx : x ≠ []) (h : '/' ∉ x) :
    basename (d ++ '/' :: x) = x := by
  unfold basename
  have hrev : (d ++ '/' :: x).reverse = x.reverse ++ '/' :: d.reverse := by simp
  rw [hrev]
  have hmem : ∀ c ∈ x.reverse, c ≠ '/' := fun c hc e => h (e ▸ List.mem_reverse.1 hc)
  have h1 : (x.reverse ++ '/' :: d.reverse).dropWhile (fun c => decide (c = '/'))
      = x.reverse ++ '/' :: d.reverse := by
    cases hr : x.reverse with
    | nil => exact absurd (List.reverse_eq_nil_iff.1 hr) hx
    | cons y t =>
      have hy : y ≠ '/' := hmem y (by rw [hr]; exact List.mem_cons_self _ _)
      simp [List.dropWhile, hy]
  rw [h1]
  have h2 : ∀ (l t : Str), (∀ c ∈ l, c ≠ '/') →
      (l ++ '/' :: t).takeWhile (fun c => decide (c ≠ '/')) = l := by
    intro l t hl
    induction l with
    | nil => simp [List.takeWhile]
    | cons a l ih =>
      have ha : a ≠ '/' := hl a (List.mem_cons_self _ _)
      have ih' := ih (fun c hc => hl c (List.mem_cons_of_mem _ hc))
      simpa [List.takeWhile, ha] using ih'
  rw [h2 _ _ hmem, List.reverse_reverse]

/-- A path that ends with a non-empty run of non-separators has a non-empty basename. -/
theorem basename_append_ne_nil (a b : Str) (hb : b ≠ []) (h : '/' ∉ b) :
    basename (a ++ b) ≠ [] := by
  unfold basename
  rw [List.reverse_append]
  cases hr : b.reverse with
  | nil => exact absurd (List.reverse_eq_nil_iff.1 hr) hb
  | cons y t =>
    have hy : y ≠ '/' := by
      intro e
      apply h
      have : y ∈ b.reverse := by rw [hr]; exact List.mem_cons_self _ _
      rw [← e]; exact List.mem_reverse.1 this
    simp [List.dropWhile, List.takeWhile, hy]

/-- The candidates of one directory in mapping mode: one when the mapping has a
non-empty value for the key, none otherwise. -/
theorem getCandidatesFromMapping_single (m : Str → Option Str) (file sp : Str) :
    getCandidatesFromMapping m file [sp] =
      match m (normalize (join [sp, file])) with
      | some v => if v ≠ [] then [dirname file ++ '/' :: basename v] else []
      | none => [] := by
  unfold getCandidatesFromMapping
  simp only [List.foldl_cons, List.foldl_nil]
  cases m (normalize (join [sp, file])) with
  | none => rfl
  | some v => by_cases hv : v = [] <;> simp [hv]

/-- The first candidate of one directory in filesystem mode comes from the first
path of the expansion that looks revved. -/
theorem getCandidatesFromFS_head (e : Str → List Str) (file sp gf : Str)
    (before after : List Str)
    (hexp : e (searchString sp file) = before ++ gf :: after)
    (hbefore : ∀ g ∈ before, ¬ LooksRevved (basename file) g)
    (hgf : LooksRevved (basename file) gf) :
    (getCandidatesFromFS e file [sp]).head?
      = some (if '/' ∉ file then basename gf else dirname file ++ '/' :: basename gf) := by
  rw [getCandidatesFromFS_single, hexp, List.filter_append]
  have h1 : before.filter (revvedRx (basename file)) = [] := by
    rw [List.filter_eq_nil_iff]
    intro g hg hrx
    exact hbefore g hg ((revvedRx_iff _ _).1 hrx)
  have h2 : revvedRx (basename file) gf = true := (revvedRx_iff _ _).2 hgf
  rw [h1, List.filter_cons_of_pos h2]
  rfl

/-- When the reference is neither external nor empty and the first candidate is a
non-empty string, `find` returns it behind the leading separators of the reference. -/
theorem find_of_candidate (loc : Locator) (ofile : Str) (sd : SearchDirs) (fp : Str)
    (h1 : matchScheme ofile = false) (h2 : ofile ≠ [])
    (hc : (getRevvedCandidates loc (ofile.dropWhile (fun c => c = '/'))
      (searchPathsOf sd)).head? = some fp)
    (hfp : fp ≠ []) :
    find loc ofile sd = ofile.takeWhile (fun c => c = '/') ++ fp := by
  rw [find_eq, hc]
  simp [h1, h2, hfp]

/-- A string without `://` fails the scheme test. -/
theorem matchScheme_eq_false (s : Str) (h : ¬ [':', '/', '/'] <:+: s) :
    matchScheme s = false := by
  cases hm : matchScheme s with
  | false => rfl
  | true => exact absurd ((matchScheme_iff s).1 hm) h

/-- The first candidate overall is the first candidate of the first directory that
produces any. -/
theorem getRevvedCandidates_head_first (loc : Locator) (file : Str)
    (pre post : List Str) (sp : Str)
    (hpre : ∀ d ∈ pre, getRevvedCandidates loc file [d] = [])
    (hsp : getRevvedCandidates loc file [sp] ≠ []) :
    (getRevvedCandidates loc file (pre ++ sp :: post)).head?
      = (getRevvedCandidates loc file [sp]).head? := by
  rw [getRevvedCandidates_eq_flatMap loc file (pre ++ sp :: post), List.flatMap_append,
    List.flatMap_cons]
  have h0 : pre.flatMap (fun d => getRevvedCandidates loc file [d]) = [] := by
    simp only [List.flatMap_eq_nil_iff]; exact hpre
  rw [h0, List.nil_append]
  cases hc : getRevvedCandidates loc file [sp] with
  | nil => exact absurd hc hsp
  | cons c t => rfl

/-- A basename contains no separator. -/
theorem slash_not_mem_basename (g : Str) : '/' ∉ basename g := by
  unfold basename
  intro hmem
  have h2 := List.mem_takeWhile_imp (List.mem_reverse.1 hmem)
  simp at h2

/-- Hexadecimal digits are not separators. -/
theorem slash_not_mem_of_hex (hs : Str) (h : ∀ c ∈ hs, isHexDigit c = true) : '/' ∉ hs := by
  intro hmem
  have := h '/' hmem
  revert this
  decide

/-- The basename of a path that ends with a non-empty run `s` of non-separators
ends with `s`. -/
theorem basename_append_suffix (pre s : Str) (hs : s ≠ []) (h : '/' ∉ s) :
    ∃ pre' : Str, basename (pre ++ s) = pre' ++ s := by
  unfold basename
  rw [List.reverse_append]
  have hmem : ∀ c ∈ s.reverse, c ≠ '/' := fun c hc e => h (e ▸ List.mem_reverse.1 hc)
  have h1 : (s.reverse ++ pre.reverse).dropWhile (fun c => decide (c = '/'))
      = s.reverse ++ pre.reverse := by
    cases hr : s.reverse with
    | nil => exact absurd (List.reverse_eq_nil_iff.1 hr) hs
    | cons y t =>
      have hy : y ≠ '/' := hmem y (by rw [hr]; exact List.mem_cons_self _ _)
      simp [List.dropWhile, hy]
  rw [h1, List.takeWhile_append_of_pos (by simpa using hmem)]
  exact ⟨(pre.reverse.takeWhile (fun c => decide (c ≠ '/'))).reverse, by simp⟩

/-- A path that looks revved for a basename has a basename that looks revved too. -/
theorem LooksRevved_basename (b g : Str) (hb : '/' ∉ b) (h : LooksRevved b g) :
    LooksRevved b (basename g) := by
  obtain ⟨pre, hs, hne, hall, hg⟩ := h
  have hslash : '/' ∉ hs ++ '.' :: b := by
    intro hmem
    rcases List.mem_append.1 hmem with h1 | h1
    · exact slash_not_mem_of_hex hs hall h1
    · rcases List.mem_cons.1 h1 with h2 | h2
      · revert h2; decide
      · exact hb h2
  obtain ⟨pre', hp⟩ := basename_append_suffix pre (hs ++ '.' :: b) (by simp) hslash
  refine ⟨pre', hs, hne, hall, ?_⟩
  rw [hg, List.append_assoc, hp, List.append_assoc]

/-- A path that does not end with a separator ends with its basename. -/
theorem eq_append_basename (g : Str) (h : g.getLast? ≠ some '/') :
    ∃ d : Str, g = d ++ basename g := by
  unfold basename
  have h1 : g.reverse.dropWhile (fun c => decide (c = '/')) = g.reverse :=
    (dropWhile_slash_of_head g.reverse (by rw [List.head?_reverse]; exact h)).1
  rw [h1]
  refine ⟨(g.reverse.dropWhile (fun c => decide (c ≠ '/'))).reverse, ?_⟩
  rw [← List.reverse_append, List.takeWhile_append_dropWhile, List.reverse_reverse]

/-- A trailing separator after the reversed path does not change what the
basename scan collects. -/
theorem basename_scan_append_slash (y : Str) :
    ((y ++ ['/']).dropWhile (fun c => decide (c = '/'))).takeWhile (fun c => decide (c ≠ '/'))
      = (y.dropWhile (fun c => decide (c = '/'))).takeWhile (fun c => decide (c ≠ '/')) := by
  have htake : ∀ z : Str, (z ++ ['/']).takeWhile (fun c => decide (c ≠ '/'))
      = z.takeWhile (fun c => decide (c ≠ '/')) := by
    intro z
    induction z with
    | nil => simp [List.takeWhile]
    | cons a z ih =>
      by_cases ha : a = '/'
      · simp [List.takeWhile, ha]
      · simpa [List.takeWhile, ha] using ih
  induction y with
  | nil => simp [List.dropWhile, List.takeWhile]
  | cons a y ih =>
    by_cases ha : a = '/'
    · simpa [List.dropWhile, ha] using ih
    · have := htake (a :: y)
      simpa [List.dropWhile, ha] using this

/-- A separator in front of a path does not change its basename. -/
theorem basename_cons_slash (x : Str) : basename ('/' :: x) = basename x := by
  unfold basename
  rw [List.reverse_cons, basename_scan_append_slash]

/-- Leading separators do not change the basename. -/
theorem basename_slashes_append (p r : Str) (hp : ∀ c ∈ p, c = '/') :
    basename (p ++ r) = basename r := by
  induction p with
  | nil => rfl
  | cons c t ih =>
    have hc : c = '/' := hp c (List.mem_cons_self _ _)
    subst hc
    rw [List.cons_append, basename_cons_slash, ih (fun x hx => hp x (List.mem_cons_of_mem _ hx))]

/-- The reference and the reference without its leading separators have the same
basename. -/
theorem basename_dropWhile_slash (ofile : Str) :
    basename (ofile.dropWhile (fun c => c = '/')) = basename ofile := by
  conv_rhs => rw [← List.takeWhile_append_dropWhile (fun c => decide (c = '/')) ofile]
  rw [basename_slashes_append]
  intro c hc
  simpa using List.mem_takeWhile_imp hc

/-- Splitting always yields at least one piece. -/
theorem splitSlash_ne_nil (s : Str) : splitSlash s ≠ [] := by
  cases s with
  | nil => simp [splitSlash]
  | cons c cs =>
    rw [splitSlash]
    split
    · simp
    · split <;> simp

/-- Splitting distributes over a separator. -/
theorem splitSlash_append_slash (a t : Str) :
    splitSlash (a ++ '/' :: t) = splitSlash a ++ splitSlash t := by
  induction a with
  | nil => simp [splitSlash]
  | cons c a ih =>
    rw [List.cons_append, splitSlash, splitSlash, ih]
    by_cases hc : c = '/'
    · simp [hc]
    · rw [if_neg hc, if_neg hc]
      cases hsa : splitSlash a with
      | nil => exact absurd hsa (splitSlash_ne_nil a)
      | cons seg rest => rfl

/-- A string without separator is a single piece. -/
theorem splitSlash_of_no_slash (s : Str) (h : '/' ∉ s) : splitSlash s = [s] := by
  induction s with
  | nil => rfl
  | cons c t ih =>
    have hc : c ≠ '/' := fun e => h (e ▸ List.mem_cons_self _ _)
    have ht : '/' ∉ t := fun hm => h (List.mem_cons_of_mem _ hm)
    rw [splitSlash, if_neg hc, ih ht]

/-- The loop of `normalizeArray` only adds parts in front of the kept ones. -/
theorem foldr_normalizeStep_kept (l : List Str) (k : List Str) (u : Nat) :
    ∃ (k' : List Str) (u' : Nat), l.foldr normalizeStep (k, u) = (k' ++ k, u') := by
  induction l with
  | nil => exact ⟨[], u, rfl⟩
  | cons x t ih =>
    obtain ⟨k', u', h⟩ := ih
    rw [List.foldr_cons, h]
    unfold normalizeStep
    by_cases h1 : x = ['.']
    · exact ⟨k', u', by simp [h1]⟩
    · by_cases h2 : x = ['.', '.']
      · exact ⟨k', u' + 1, by simp [h2]⟩
      · by_cases h3 : 0 < u'
        · exact ⟨k', u' - 1, by simp [h1, h2, h3]⟩
        · exact ⟨x :: k', u', by simp [h1, h2, h3]⟩

/-- Joining a list of parts that ends with `s`. -/
theorem joinSlash_append_singleton (L : List Str) (s : Str) :
    joinSlash (L ++ [s]) = s ∨ ∃ d : Str, joinSlash (L ++ [s]) = d ++ '/' :: s := by
  induction L with
  | nil => left; rfl
  | cons x t ih =>
    right
    cases t with
    | nil => exact ⟨x, rfl⟩
    | cons y t' =>
      rcases ih with h | ⟨d, h⟩
      · exact ⟨x, by
          show x ++ '/' :: joinSlash ((y :: t') ++ [s]) = _
          rw [h]⟩
      · exact ⟨x ++ '/' :: d, by
          show x ++ '/' :: joinSlash ((y :: t') ++ [s]) = _
          rw [h]; simp⟩

/-- Normalization keeps a last segment that is neither `.` nor `..`. -/
theorem normalize_last_segment (a s : Str) (hs : s ≠ []) (hslash : '/' ∉ s)
    (hdot : s ≠ ['.']) (hdd : s ≠ ['.', '.']) :
    normalize (a ++ '/' :: s) = s ∨ ∃ d : Str, normalize (a ++ '/' :: s) = d ++ '/' :: s := by
  have hlast : (a ++ '/' :: s).getLast? ≠ some '/' := by
    obtain ⟨c, t, hct⟩ : ∃ c t, s = t ++ [c] := by
      rcases List.eq_nil_or_concat s with h | ⟨t, c, h⟩
      · exact absurd h hs
      · exact ⟨c, t, by simpa using h⟩
    have hc : c ≠ '/' := by
      intro e; apply hslash; rw [hct, e]; simp
    rw [hct, show a ++ '/' :: (t ++ [c]) = (a ++ '/' :: t) ++ [c] by simp,
      List.getLast?_append]
    simpa using hc
  have hparts : (splitSlash (a ++ '/' :: s)).filter (fun x => decide (x ≠ []))
      = (splitSlash a).filter (fun x => decide (x ≠ [])) ++ [s] := by
    rw [splitSlash_append_slash, splitSlash_of_no_slash s hslash, List.filter_append]
    simp [hs]
  have harr : ∀ b : Bool, ∃ L : List Str,
      normalizeArray ((splitSlash (a ++ '/' :: s)).filter (fun x => decide (x ≠ []))) b
        = L ++ [s] := by
    intro b
    rw [hparts]
    unfold normalizeArray
    rw [List.foldr_append]
    have hstep : List.foldr normalizeStep ([], 0) [s] = ([s], 0) := by
      simp [normalizeStep, hdot, hdd]
    rw [hstep]
    obtain ⟨k', u', hk⟩ := foldr_normalizeStep_kept
      ((splitSlash a).filter (fun x => decide (x ≠ []))) [s] 0
    rw [hk]
    cases b with
    | true => exact ⟨List.replicate u' ['.', '.'] ++ k', by simp⟩
    | false => exact ⟨k', by simp⟩
  unfold normalize
  simp only []
  rw [decide_eq_false hlast]
  generalize decide ((a ++ '/' :: s).head? = some '/') = ab
  obtain ⟨L, hL⟩ := harr (!ab)
  rw [hL]
  have hjne : joinSlash (L ++ [s]) ≠ [] := by
    rcases joinSlash_append_singleton L s with hj | ⟨d, hj⟩
    · rw [hj]; exact hs
    · rw [hj]; simp
  simp only [hjne, false_and, and_false, if_false, Bool.false_eq_true]
  rcases joinSlash_append_singleton L s with hj | ⟨d, hj⟩
  · rw [hj]
    cases ab with
    | true => right; exact ⟨[], by simp⟩
    | false => left; simp
  · rw [hj]
    cases ab with
    | true => right; exact ⟨'/' :: d, by simp⟩
    | false => right; exact ⟨d, by simp⟩

/-- A dirname is never the empty string. -/
theorem dirname_ne_nil (f : Str) : dirname f ≠ [] := by
  unfold dirname
  cases f with
  | nil => simp
  | cons c rest =>
    simp only []
    split
    · split <;> simp
    · split <;> simp

/-- Joining directories with a last segment that is neither `.` nor `..` gives a
path whose last segment is that segment. -/
theorem join_last_segment (sp d s : Str) (hd : d ≠ []) (hs : s ≠ []) (hslash : '/' ∉ s)
    (hdot : s ≠ ['.']) (hdd : s ≠ ['.', '.']) :
    join [sp, d, s] = s ∨ ∃ x : Str, join [sp, d, s] = x ++ '/' :: s := by
  unfold join
  by_cases hsp : sp = []
  · have : joinSlash ([sp, d, s].filter (fun x => decide (x ≠ []))) = d ++ '/' :: s := by
      simp [hsp, hd, hs, List.filter, joinSlash]
    rw [this]
    exact normalize_last_segment d s hs hslash hdot hdd
  · have : joinSlash ([sp, d, s].filter (fun x => decide (x ≠ [])))
        = (sp ++ '/' :: d) ++ '/' :: s := by
      simp [hsp, hd, hs, List.filter, joinSlash]
    rw [this]
    exact normalize_last_segment _ s hs hslash hdot hdd

/-- The revved path `join(sp, dirname(f), h + "." + basename(f))`, for a non-empty
hexadecimal `h`: it is not empty, its basename is `h + "." + basename(f)`, and it
looks revved for `basename(f)`. -/
theorem revved_join_facts (sp f h : Str) (hh : h ≠ []) (hhex : ∀ c ∈ h, isHexDigit c = true) :
    join [sp, dirname f, h ++ '.' :: basename f] ≠ [] ∧
    basename (join [sp, dirname f, h ++ '.' :: basename f]) = h ++ '.' :: basename f ∧
    LooksRevved (basename f) (join [sp, dirname f, h ++ '.' :: basename f]) := by
  have hs : h ++ '.' :: basename f ≠ [] := by simp
  have hslash : '/' ∉ h ++ '.' :: basename f := by
    intro hmem
    rcases List.mem_append.1 hmem with h1 | h1
    · exact slash_not_mem_of_hex h hhex h1
    · rcases List.mem_cons.1 h1 with h2 | h2
      · revert h2; decide
      · exact slash_not_mem_basename f h2
  obtain ⟨c, t, hct⟩ : ∃ c t, h = c :: t := by
    cases h with
    | nil => exact absurd rfl hh
    | cons c t => exact ⟨c, t, rfl⟩
  have hc : c ≠ '.' := by
    intro e
    have := hhex c (by rw [hct]; exact List.mem_cons_self _ _)
    rw [e] at this
    revert this
    decide
  have hdot : h ++ '.' :: basename f ≠ ['.'] := by
    rw [hct]; intro e
    have := congrArg List.head? e
    simp at this
    exact hc this
  have hdd : h ++ '.' :: basename f ≠ ['.', '.'] := by
    rw [hct]; intro e
    have := congrArg List.head? e
    simp at this
    exact hc this
  rcases join_last_segment sp (dirname f) _ (dirname_ne_nil f) hs hslash hdot hdd
    with hj | ⟨x, hj⟩
  · rw [hj]
    exact ⟨hs, basename_of_no_slash _ hslash, [], h, hh, hhex, by simp⟩
  · rw [hj]
    exact ⟨by simp, basename_append_segment x _ hs hslash,
      x ++ ['/'], h, hh, hhex, by simp⟩

/-- A normalized path is never the empty string. -/
theorem normalize_ne_nil (w : Str) : normalize w ≠ [] := by
  unfold normalize
  simp only []
  generalize decide (w.head? = some '/') = ab
  generalize decide (w.getLast? = some '/') = tb
  generalize joinSlash (normalizeArray ((splitSlash w).filter (fun s => decide (s ≠ []))) (!ab))
    = p
  cases ab <;> cases tb <;> by_cases hp : p = [] <;> simp [hp]

/-- In mapping mode, a non-empty value at the key of a relative reference gives the
directory of the reference followed by the basename of the value. -/
theorem find_mapping_of_value (m : Str → Option Str) (f sp v : Str)
    (hne : f ≠ []) (hrel : f.head? ≠ some '/') (hext : ¬ [':', '/', '/'] <:+: f)
    (hkey : m (normalize (join [sp, f])) = some v) (hv : v ≠ []) :
    find (.mapping m) f (.str sp) = dirname f ++ '/' :: basename v := by
  have hm := matchScheme_eq_false f hext
  obtain ⟨hd, ht⟩ := dropWhile_slash_of_head f hrel
  have hc : (getRevvedCandidates (.mapping m) (f.dropWhile (fun c => c = '/'))
      (searchPathsOf (.str sp))).head? = some (dirname f ++ '/' :: basename v) := by
    rw [hd]
    show (getCandidatesFromMapping m f [sp]).head? = _
    rw [getCandidatesFromMapping_single, hkey]
    simp [hv]
  rw [find_of_candidate _ _ _ _ hm hne hc (by simp), ht]
  rfl

/-- On a plain object the mapping strategy returns what the dictionary reading
gives, as long as no looked-up key reaches an inherited property. -/
theorem getCandidatesFromPlainObject_eq (m : Str → Option Str) (file : Str)
    (sps : List Str)
    (h : ∀ sp ∈ sps, getProperty m (normalize (join [sp, file])) ≠ .inherited) :
    getCandidatesFromPlainObject m file sps = some (getCandidatesFromMapping m file sps) := by
  have key : ∀ c : List Str,
      sps.foldl (fun acc sp =>
        match acc with
        | none => none
        | some candidates =>
          match getProperty m (normalize (join [sp, file])) with
          | .undefined => some candidates
          | .string v =>
            if v ≠ [] then some (candidates ++ [dirname file ++ '/' :: basename v])
            else some candidates
          | .inherited => none) (some c)
      = some (sps.foldl (fun candidates sp =>
          match m (normalize (join [sp, file])) with
          | some v =>
            if v ≠ [] then candidates ++ [dirname file ++ '/' :: basename v] else candidates
          | none => candidates) c) := by
    induction sps with
    | nil => intro c; rfl
    | cons sp t ih =>
      intro c
      have hsp := h sp (List.mem_cons_self _ _)
      have ht := ih (fun x hx => h x (List.mem_cons_of_mem _ hx))
      rw [List.foldl_cons, List.foldl_cons]
      cases hk : m (normalize (join [sp, file])) with
      | some v =>
        have hp : getProperty m (normalize (join [sp, file])) = .string v := by
          simp [getProperty, hk]
        simp only [hp]
        by_cases hv : v = []
        · simpa [hv] using ht c
        · simpa [hv] using ht (c ++ [dirname file ++ '/' :: basename v])
      | none =>
        have hp : getProperty m (normalize (join [sp, file])) = .undefined := by
          by_cases hmem : normalize (join [sp, file]) ∈ objectPrototypeKeys
          · exact absurd (by simp [getProperty, hk, hmem]) hsp
          · simp [getProperty, hk, hmem]
        simp only [hp]
        exact ht c
  exact key []

/-! ## Properties of `find` -/

/-- C1: a reference that is the empty string or contains the substring `://` is
returned unchanged by `find`, for every locator (mapping or expand function) and
every value of the search directories. -/
theorem find_external_or_empty (loc : Locator) (reference : Str)
    (searchDirectories : SearchDirs)
    (h : reference = [] ∨ [':', '/', '/'] <:+: reference) :
    find loc reference searchDirectories = reference := by
  rw [find_eq, if_pos]
  rcases h with h | h
  · exact Or.inr h
  · exact Or.inl ((matchScheme_iff reference).2 h)

/-- Instance of C1: an `http://` reference and the empty reference, with a mapping
that has an entry for the key a lookup would use. -/
theorem find_external_or_empty_witness :
    ([':', '/', '/'] <:+: "http://images/pic.png".toList) ∧
    find (.mapping (mappingOf [("dist/http:/images/pic.png".toList, "x/1f.pic.png".toList)]))
      "http://images/pic.png".toList (.str "dist".toList) = "http://images/pic.png".toList ∧
    find (.mapping (mappingOf [("dist".toList, "x/1f.dist".toList)])) []
      (.list ["dist".toList]) = [] :=
  ⟨⟨"http".toList, "images/pic.png".toList, by decide⟩,
   find_external_or_empty _ _ _ (Or.inr ⟨"http".toList, "images/pic.png".toList, by decide⟩),
   find_external_or_empty _ _ _ (Or.inl rfl)⟩

/-- C2: when the active strategy yields no candidate for any search directory,
`find` returns the original reference, leading separators included, and not the
form stripped for the lookup. -/
theorem find_no_candidate (loc : Locator) (reference : Str)
    (searchDirectories : SearchDirs)
    (h : ∀ sp ∈ searchPathsOf searchDirectories,
      getRevvedCandidates loc (reference.dropWhile (fun c => c = '/')) [sp] = []) :
    find loc reference searchDirectories = reference := by
  rw [find_eq]
  split
  · rfl
  · have hnil : getRevvedCandidates loc (reference.dropWhile (fun c => c = '/'))
        (searchPathsOf searchDirectories) = [] := by
      rw [getRevvedCandidates_eq_flatMap]
      simp only [List.flatMap_eq_nil_iff]
      exact h
    rw [hnil]
    rfl

/-- Instance of C2: an absolute reference that no directory resolves comes back
with its leading separator. -/
theorem find_no_candidate_witness :
    (∀ sp ∈ searchPathsOf (.list ["dist".toList, "tmp".toList]),
      getRevvedCandidates (.mapping emptyMapping)
        ("/images/pic.png".toList.dropWhile (fun c => c = '/')) [sp] = []) ∧
    find (.mapping emptyMapping) "/images/pic.png".toList
      (.list ["dist".toList, "tmp".toList]) = "/images/pic.png".toList :=
  ⟨by decide, find_no_candidate _ _ _ (by decide)⟩

/-- C3: absolute-path preservation.  For a non-empty `r` that does not begin with
`/` and a non-empty run `p` of `/`, the reference `p ++ r` is resolved as `r` is
and the run `p` is restored verbatim in front of the result. -/
theorem find_absolute_preserved (loc : Locator) (p r : Str)
    (searchDirectories : SearchDirs)
    (hp : p ≠ []) (hslash : ∀ c ∈ p, c = '/')
    (hr : r ≠ []) (hhead : r.head? ≠ some '/') :
    find loc (p ++ r) searchDirectories = p ++ find loc r searchDirectories := by
  obtain ⟨hd, ht⟩ := span_slash_append p r hslash hhead
  obtain ⟨hd', ht'⟩ := dropWhile_slash_of_head r hhead
  have hne : p ++ r ≠ [] := by simp [hp]
  rw [find_eq, find_eq, hd, ht, hd', ht', matchScheme_slash_append p r hslash]
  by_cases hm : matchScheme r = true
  · simp [hm]
  · simp only [hm, hne, hr, or_self, if_false]
    cases (getRevvedCandidates loc r (searchPathsOf searchDirectories)).head? with
    | none => rfl
    | some fp => by_cases hfp : fp = [] <;> simp [hfp]

/-- Instance of C3 with the mapping of the examples: one and two leading
separators are both preserved. -/
theorem find_absolute_preserved_witness :
    find (.mapping picMapping) ("//".toList ++ "images/pic.png".toList) (.str "dist".toList)
      = "//".toList ++ find (.mapping picMapping) "images/pic.png".toList (.str "dist".toList) ∧
    find (.mapping picMapping) "/images/pic.png".toList (.str "dist".toList)
      = "/images/2123.pic.png".toList ∧
    find (.mapping picMapping) "//images/pic.png".toList (.str "dist".toList)
      = "//images/2123.pic.png".toList :=
  ⟨find_absolute_preserved _ _ _ _ (by decide) (by decide) (by decide) (by decide),
   by decide, by decide⟩

/-- C9: a single search-directory string is treated exactly as the one-element
array that contains it. -/
theorem find_string_eq_singleton (loc : Locator) (reference s : Str) :
    find loc reference (.str s) = find loc reference (.list [s]) := rfl

/-- C4: mapping mode.  For a relative reference `f` with a directory component, a
search directory `sp` and a mapping that maps the key `normalize(join(sp, f))`
to a revved path `v` (the values of a mapping are normalized paths,
`v = normalize(w)`), `find(f, sp)` returns `dirname(f) + "/" + basename(v)`; only
the basename of `v` influences the result. -/
theorem find_mapping_hit (m : Str → Option Str) (f sp w : Str)
    (hne : f ≠ []) (hrel : f.head? ≠ some '/') (hext : ¬ [':', '/', '/'] <:+: f)
    (_hdir : '/' ∈ f)
    (hkey : m (normalize (join [sp, f])) = some (normalize w)) :
    find (.mapping m) f (.str sp) = dirname f ++ '/' :: basename (normalize w) ∧
    ∀ (m' : Str → Option Str) (w' : Str),
      m' (normalize (join [sp, f])) = some (normalize w') →
      basename (normalize w') = basename (normalize w) →
      find (.mapping m') f (.str sp) = find (.mapping m) f (.str sp) := by
  have h1 := find_mapping_of_value m f sp (normalize w) hne hrel hext hkey (normalize_ne_nil w)
  refine ⟨h1, ?_⟩
  intro m' w' hk hb
  rw [h1, find_mapping_of_value m' f sp (normalize w') hne hrel hext hk (normalize_ne_nil w'),
    hb]

/-- Instance of C4: the mapping example of the specification. -/
theorem find_mapping_hit_witness :
    normalize "dist/images/2123.pic.png".toList = "dist/images/2123.pic.png".toList ∧
    find (.mapping picMapping) "images/pic.png".toList (.str "dist".toList)
      = dirname "images/pic.png".toList
        ++ '/' :: basename (normalize "dist/images/2123.pic.png".toList) ∧
    find (.mapping picMapping) "images/pic.png".toList (.str "dist".toList)
      = "images/2123.pic.png".toList :=
  ⟨by decide,
   (find_mapping_hit picMapping "images/pic.png".toList "dist".toList
      "dist/images/2123.pic.png".toList (by decide) (by decide)
      (fun h => by have := (matchScheme_iff _).2 h; revert this; decide)
      (by decide) (by decide)).1,
   by decide⟩

/-- C5: filesystem mode.  For a relative reference `f` with a directory part,
`d = dirname(f)`, `b = basename(f)`, and a search directory `sp`, the expand
function is consulted at the pattern `join(sp, d, "*." + b)` and nowhere else
(two expand functions that agree there give the same result), and when the first
path it returns that ends with hexadecimal digits, a dot and `b` is `gf`, the
result of `find(f, sp)` is `d + "/" +` the final segment of `gf`. -/
theorem find_fs_hit (e : Str → List Str) (f sp gf : Str) (before after : List Str)
    (hne : f ≠ []) (hrel : f.head? ≠ some '/') (hext : ¬ [':', '/', '/'] <:+: f)
    (hdir : '/' ∈ f)
    (hexp : e (join [sp, dirname f, '*' :: '.' :: basename f]) = before ++ gf :: after)
    (hbefore : ∀ g ∈ before, ¬ LooksRevved (basename f) g)
    (hgf : LooksRevved (basename f) gf) :
    find (.expandfn e) f (.str sp) = dirname f ++ '/' :: basename gf ∧
    ∀ e' : Str → List Str,
      e' (join [sp, dirname f, '*' :: '.' :: basename f])
        = e (join [sp, dirname f, '*' :: '.' :: basename f]) →
      find (.expandfn e') f (.str sp) = find (.expandfn e) f (.str sp) := by
  have hm := matchScheme_eq_false f hext
  obtain ⟨hd, ht⟩ := dropWhile_slash_of_head f hrel
  have key : ∀ e' : Str → List Str,
      e' (join [sp, dirname f, '*' :: '.' :: basename f]) = before ++ gf :: after →
      find (.expandfn e') f (.str sp) = dirname f ++ '/' :: basename gf := by
    intro e' he'
    have hc : (getRevvedCandidates (.expandfn e') (f.dropWhile (fun c => c = '/'))
        (searchPathsOf (.str sp))).head? = some (dirname f ++ '/' :: basename gf) := by
      rw [hd]
      show (getCandidatesFromFS e' f [sp]).head? = _
      rw [getCandidatesFromFS_head e' f sp gf before after he' hbefore hgf]
      simp [hdir]
    rw [find_of_candidate _ _ _ _ hm hne hc (by simp), ht]
    rfl
  refine ⟨key e hexp, ?_⟩
  intro e' he'
  rw [key e hexp, key e' (he'.trans hexp)]

/-- Instance of C5: the example of the comment above `find`. -/
theorem find_fs_hit_witness :
    join ["build/css".toList, dirname "../../images/pic.png".toList,
      '*' :: '.' :: basename "../../images/pic.png".toList] = "images/*.pic.png".toList ∧
    LooksRevved (basename "../../images/pic.png".toList) "images/2123.pic.png".toList ∧
    find (.expandfn (fun _ => ["images/2123.pic.png".toList])) "../../images/pic.png".toList
      (.str "build/css".toList)
      = dirname "../../images/pic.png".toList ++ '/' :: basename "images/2123.pic.png".toList ∧
    find (.expandfn (fun _ => ["images/2123.pic.png".toList])) "../../images/pic.png".toList
      (.str "build/css".toList) = "../../images/2123.pic.png".toList :=
  ⟨by decide,
   ⟨"images/".toList, "2123".toList, by decide, by decide, by decide⟩,
   (find_fs_hit (fun _ => ["images/2123.pic.png".toList]) "../../images/pic.png".toList
      "build/css".toList "images/2123.pic.png".toList [] [] (by decide) (by decide)
      (fun h => by have := (matchScheme_iff _).2 h; revert this; decide)
      (by decide) rfl (fun _ hg => absurd hg (List.not_mem_nil _))
      ⟨"images/".toList, "2123".toList, by decide, by decide, by decide⟩).1,
   by decide⟩

/-- C6, as stated, fails: for the reference `../../css/style.css` and the search
directory `dist` the pattern handed to the expand function is `../css/*.style.css`
and not `dist/css/*.style.css`, so an expand function that only answers the
latter yields no candidate and `find` returns the reference unchanged. -/
theorem css_example_pattern_differs :
    searchString "dist".toList "../../css/style.css".toList = "../css/*.style.css".toList ∧
    searchString "dist".toList "../../css/style.css".toList ≠ "dist/css/*.style.css".toList ∧
    cssExpand "dist/css/*.style.css".toList = ["dist/css/9f8a.style.css".toList] ∧
    find (.expandfn cssExpand) "../../css/style.css".toList (.str "dist".toList)
      = "../../css/style.css".toList ∧
    find (.expandfn cssExpand) "../../css/style.css".toList (.str "dist".toList)
      ≠ "../../css/9f8a.style.css".toList := by
  decide

/-- C6, amended: for the reference `../../css/style.css` and the search directory
`dist` the pattern handed to the expand function is `../css/*.style.css`; with an
expand function that returns for this pattern the single path `<dir>/9f8a.style.css`
(whatever it returns for other patterns), `find` returns `../../css/9f8a.style.css`. -/
theorem find_css_example (e : Str → List Str) (dir : Str)
    (h : e "../css/*.style.css".toList = [dir ++ "/9f8a.style.css".toList]) :
    searchString "dist".toList "../../css/style.css".toList = "../css/*.style.css".toList ∧
    find (.expandfn e) "../../css/style.css".toList (.str "dist".toList)
      = "../../css/9f8a.style.css".toList := by
  have hpat : searchString "dist".toList "../../css/style.css".toList
      = "../css/*.style.css".toList := by decide
  refine ⟨hpat, ?_⟩
  have hb : basename (dir ++ "/9f8a.style.css".toList) = "9f8a.style.css".toList :=
    basename_append_segment dir "9f8a.style.css".toList (by decide) (by decide)
  have hgf : LooksRevved (basename "../../css/style.css".toList)
      (dir ++ "/9f8a.style.css".toList) :=
    ⟨dir ++ ['/'], "9f8a".toList, by decide, by decide, by
      have hbn : basename "../../css/style.css".toList = "style.css".toList := by decide
      rw [hbn]
      simp⟩
  have hc : (getRevvedCandidates (.expandfn e)
      ("../../css/style.css".toList.dropWhile (fun c => c = '/'))
      (searchPathsOf (.str "dist".toList))).head?
      = some ("../../css".toList ++ '/' :: basename (dir ++ "/9f8a.style.css".toList)) := by
    have hd : "../../css/style.css".toList.dropWhile (fun c => c = '/')
        = "../../css/style.css".toList := by decide
    rw [hd]
    show (getCandidatesFromFS e "../../css/style.css".toList ["dist".toList]).head? = _
    rw [getCandidatesFromFS_head e _ _ (dir ++ "/9f8a.style.css".toList) [] []
      (by rw [hpat]; exact h) (fun _ hg => absurd hg (List.not_mem_nil _)) hgf]
    have hslash : '/' ∈ "../../css/style.css".toList := by decide
    have hdn : dirname "../../css/style.css".toList = "../../css".toList := by decide
    rw [if_neg (not_not.2 hslash), hdn]
  rw [find_of_candidate _ _ _ _ (by decide) (by decide) hc (by simp), hb]
  decide

/-- Instance of the amended C6, with the revved file reported under `../css`. -/
theorem find_css_example_witness :
    searchString "dist".toList "../../css/style.css".toList = "../css/*.style.css".toList ∧
    find (.expandfn (fun pattern => if pattern = "../css/*.style.css".toList
        then ["../css".toList ++ "/9f8a.style.css".toList] else []))
      "../../css/style.css".toList (.str "dist".toList) = "../../css/9f8a.style.css".toList :=
  find_css_example _ "../css".toList (by decide)

/-- C7: single-segment filesystem case.  For a reference whose part `r` after the
leading separators `p` (if any) is non-empty and contains no `/`, when the first
path returned by the expand function that ends with hexadecimal digits, a dot and
`r` is `gf`, the result of `find` is the final segment of `gf` alone: no directory
(no `./`) is put in front of it, only the leading separators `p` of the reference
are restored; for `p` empty the result is the bare segment. -/
theorem find_fs_single_segment (e : Str → List Str) (p r sp gf : Str)
    (before after : List Str)
    (hp : ∀ c ∈ p, c = '/') (hr : r ≠ []) (hseg : '/' ∉ r)
    (hexp : e (searchString sp r) = before ++ gf :: after)
    (hbefore : ∀ g ∈ before, ¬ LooksRevved r g)
    (hgf : LooksRevved r gf) :
    find (.expandfn e) (p ++ r) (.str sp) = p ++ basename gf ∧
    find (.expandfn e) r (.str sp) = basename gf ∧
    basename gf ≠ [] ∧ '/' ∉ basename gf := by
  have hhead : r.head? ≠ some '/' := by
    cases r with
    | nil => simp
    | cons c t =>
      have : c ≠ '/' := fun h => hseg (h ▸ List.mem_cons_self _ _)
      simpa using this
  have hbr : basename r = r := basename_of_no_slash r hseg
  have hm : matchScheme r = false := by
    apply matchScheme_eq_false
    rintro ⟨a, b, hab⟩
    apply hseg
    rw [← hab]
    simp
  have hnz : basename gf ≠ [] := by
    obtain ⟨pre, hs, _, _, hg⟩ := hgf
    rw [hg, show pre ++ hs ++ '.' :: r = (pre ++ hs ++ ['.']) ++ r by simp]
    exact basename_append_ne_nil _ _ hr hseg
  have hcand : (getCandidatesFromFS e r [sp]).head? = some (basename gf) := by
    rw [getCandidatesFromFS_head e r sp gf before after hexp
      (by rw [hbr]; exact hbefore) (by rw [hbr]; exact hgf)]
    simp [hseg]
  have hfind : ∀ q : Str, (∀ c ∈ q, c = '/') →
      find (.expandfn e) (q ++ r) (.str sp) = q ++ basename gf := by
    intro q hq
    obtain ⟨hd, ht⟩ := span_slash_append q r hq hhead
    have hc : (getRevvedCandidates (.expandfn e) ((q ++ r).dropWhile (fun c => c = '/'))
        (searchPathsOf (.str sp))).head? = some (basename gf) := by
      rw [hd]; exact hcand
    rw [find_of_candidate _ _ _ _ (by rw [matchScheme_slash_append q r hq]; exact hm)
      (by simp [hr]) hc hnz, ht]
  refine ⟨hfind p hp, by simpa using hfind [] (by simp), hnz, ?_⟩
  unfold basename
  intro hmem
  have h1 := List.mem_reverse.1 hmem
  have h2 := List.mem_takeWhile_imp h1
  simp at h2

/-- Instance of C7: `style.css` looked up in `dist`. -/
theorem find_fs_single_segment_witness :
    LooksRevved "style.css".toList "dist/9f8a.style.css".toList ∧
    find (.expandfn (fun _ => ["dist/9f8a.style.css".toList])) "style.css".toList
      (.str "dist".toList) = "9f8a.style.css".toList :=
  ⟨⟨"dist/".toList, "9f8a".toList, by decide, by decide, by decide⟩,
   (find_fs_single_segment (fun _ => ["dist/9f8a.style.css".toList]) [] "style.css".toList
      "dist".toList "dist/9f8a.style.css".toList [] [] (by simp) (by decide) (by decide) rfl
      (fun _ hg => absurd hg (List.not_mem_nil _))
      ⟨"dist/".toList, "9f8a".toList, by decide, by decide, by decide⟩).2.1.trans
    (by decide)⟩

/-- C8: search-directory precedence.  In both modes, when the directories in front
of `sp` produce no candidate and `sp` produces one, the candidate `find` selects
is the first candidate of `sp`, whatever the directories behind `sp` produce, and
`find` returns what it returns for `sp` alone; in filesystem mode this candidate
comes from the first revved-looking path in the order the expand function
returned them. -/
theorem find_first_directory_wins (loc : Locator) (reference : Str)
    (pre post : List Str) (sp : Str)
    (hpre : ∀ d ∈ pre,
      getRevvedCandidates loc (reference.dropWhile (fun c => c = '/')) [d] = [])
    (hsp : getRevvedCandidates loc (reference.dropWhile (fun c => c = '/')) [sp] ≠ []) :
    (getRevvedCandidates loc (reference.dropWhile (fun c => c = '/'))
        (pre ++ sp :: post)).head?
      = (getRevvedCandidates loc (reference.dropWhile (fun c => c = '/')) [sp]).head? ∧
    find loc reference (.list (pre ++ sp :: post)) = find loc reference (.list [sp]) ∧
    ∀ (e : Str → List Str) (before after : List Str) (gf : Str),
      loc = .expandfn e →
      e (searchString sp (reference.dropWhile (fun c => c = '/'))) = before ++ gf :: after →
      (∀ g ∈ before, ¬ LooksRevved (basename (reference.dropWhile (fun c => c = '/'))) g) →
      LooksRevved (basename (reference.dropWhile (fun c => c = '/'))) gf →
      (getRevvedCandidates loc (reference.dropWhile (fun c => c = '/'))
        (pre ++ sp :: post)).head?
        = some (if '/' ∉ reference.dropWhile (fun c => c = '/') then basename gf
            else dirname (reference.dropWhile (fun c => c = '/')) ++ '/' :: basename gf) := by
  have hhead := getRevvedCandidates_head_first loc _ pre post sp hpre hsp
  refine ⟨hhead, ?_, ?_⟩
  · rw [find_eq, find_eq]
    show (if matchScheme reference = true ∨ reference = [] then reference
      else match (getRevvedCandidates loc (reference.dropWhile (fun c => c = '/'))
          (pre ++ sp :: post)).head? with
        | none => reference
        | some filepath =>
          if filepath = [] then reference
          else reference.takeWhile (fun c => c = '/') ++ filepath) = _
    rw [hhead]
    rfl
  · intro e before after gf hloc hexp hbefore hgf
    subst hloc
    rw [hhead]
    exact getCandidatesFromFS_head e _ sp gf before after hexp hbefore hgf

/-- Instance of C8 in filesystem mode: `tmp` has no revved file, `dist` has two and
the one the expand function listed first is selected, the file of `other` is not. -/
theorem find_first_directory_wins_witness :
    (∀ d ∈ ["tmp".toList],
      getRevvedCandidates (.expandfn treeExpand)
        ("images/pic.png".toList.dropWhile (fun c => c = '/')) [d] = []) ∧
    getRevvedCandidates (.expandfn treeExpand)
      ("images/pic.png".toList.dropWhile (fun c => c = '/')) ["dist".toList] ≠ [] ∧
    find (.expandfn treeExpand) "images/pic.png".toList
        (.list (["tmp".toList] ++ "dist".toList :: ["other".toList]))
      = find (.expandfn treeExpand) "images/pic.png".toList (.list ["dist".toList]) ∧
    find (.expandfn treeExpand) "images/pic.png".toList
        (.list ["tmp".toList, "dist".toList, "other".toList]) = "images/b2.pic.png".toList :=
  ⟨by decide, by decide,
   (find_first_directory_wins (.expandfn treeExpand) "images/pic.png".toList ["tmp".toList]
      ["other".toList] "dist".toList (by decide) (by decide)).2.1,
   by decide⟩

/-- C10, evaluated where it fails: for a file without directory part the mapping
strategy returns a candidate with the directory `.` in front, while the
filesystem strategy returns the bare revved name. -/
theorem getRevvedCandidates_single_segment_mapping :
    getRevvedCandidates
        (.mapping (mappingOf [("dist/pic.png".toList, "dist/2123.pic.png".toList)]))
        "pic.png".toList ["dist".toList] = ["./2123.pic.png".toList] ∧
    getRevvedCandidates (.expandfn (fun _ => ["dist/2123.pic.png".toList]))
        "pic.png".toList ["dist".toList] = ["2123.pic.png".toList] ∧
    find (.mapping (mappingOf [("dist/pic.png".toList, "dist/2123.pic.png".toList)]))
        "pic.png".toList (.str "dist".toList) = "./2123.pic.png".toList := by
  decide



/-- C11, evaluated where it fails: under `dist` the key of the file `../toString`
is `toString`, which the mapping does not contain, so no candidate is due for
this directory and the result should be the empty list, as the dictionary
reading gives.  On a plain object the lookup reaches the inherited `toString`
function, takes it for a hit, and `path.basename` raises: no list is returned. -/
theorem getCandidatesFromMapping_inherited_key :
    normalize (join ["dist".toList, "../toString".toList]) = "toString".toList ∧
    picMapping "toString".toList = none ∧
    getProperty picMapping "toString".toList = .inherited ∧
    getCandidatesFromPlainObject picMapping "../toString".toList ["dist".toList] = none ∧
    getCandidatesFromMapping picMapping "../toString".toList ["dist".toList] = [] := by
  decide

/-- C12, as stated, fails: an absolute reference that has a revved version is not
returned unchanged; the revved name comes back behind the leading separator. -/
theorem find_absolute_not_unchanged :
    "/images/pic.png".toList.head? = some '/' ∧
    find (.mapping picMapping) "/images/pic.png".toList (.str "dist".toList)
      = "/images/2123.pic.png".toList ∧
    find (.mapping picMapping) "/images/pic.png".toList (.str "dist".toList)
      ≠ "/images/pic.png".toList := by
  decide

/-- C12, amended: an external reference (containing `://`) is returned unchanged,
whatever it starts with.  An absolute reference (starting with `/`) that is not
external is returned unchanged exactly when the lookup of the reference without
its leading separators gives no candidate, or gives that stripped reference
itself; otherwise `find` returns the leading separators followed by the first
candidate. -/
theorem find_absolute_unchanged_iff (loc : Locator) (ofile : Str)
    (searchDirs : SearchDirs) :
    ([':', '/', '/'] <:+: ofile → find loc ofile searchDirs = ofile) ∧
    (ofile.head? = some '/' → ¬ [':', '/', '/'] <:+: ofile →
      (find loc ofile searchDirs = ofile ↔
        ∀ c, (getRevvedCandidates loc (ofile.dropWhile (fun x => x = '/'))
            (searchPathsOf searchDirs)).head? = some c →
          c = [] ∨ c = ofile.dropWhile (fun x => x = '/')) ∧
      ∀ c, (getRevvedCandidates loc (ofile.dropWhile (fun x => x = '/'))
            (searchPathsOf searchDirs)).head? = some c → c ≠ [] →
        find loc ofile searchDirs = ofile.takeWhile (fun x => x = '/') ++ c) := by
  refine ⟨fun h => ?_, fun habs h => ?_⟩
  · rw [find_eq, if_pos (Or.inl ((matchScheme_iff ofile).2 h))]
  · have hne : ofile ≠ [] := by
      intro h0; rw [h0] at habs; simp at habs
    have hm := matchScheme_eq_false ofile h
    have hsplit : ofile.takeWhile (fun x => x = '/') ++ ofile.dropWhile (fun x => x = '/')
        = ofile := List.takeWhile_append_dropWhile _ _
    refine ⟨?_, fun c hc hcne => find_of_candidate loc ofile searchDirs c hm hne hc hcne⟩
    rw [find_eq]
    cases hc : (getRevvedCandidates loc (ofile.dropWhile (fun x => x = '/'))
        (searchPathsOf searchDirs)).head? with
    | none => simp [hm, hne]
    | some c =>
      by_cases hcn : c = []
      · simp [hm, hne, hcn]
      · simp only [hm, hne, hcn, or_self, if_false, Bool.false_eq_true, Option.some.injEq,
          forall_eq', false_or]
        constructor
        · intro heq
          have : ofile.takeWhile (fun x => x = '/') ++ c
              = ofile.takeWhile (fun x => x = '/') ++ ofile.dropWhile (fun x => x = '/') := by
            rw [hsplit]; exact heq
          exact List.append_cancel_left this
        · intro heq
          rw [heq, hsplit]

/-- Instance of the amended C12: an external reference that does not start with
`/` and one that does are returned unchanged; the absolute reference of the
examples has a candidate other than itself and is rewritten behind its leading
separator; an absolute reference without candidate is returned unchanged. -/
theorem find_absolute_unchanged_iff_witness :
    find (.mapping picMapping) "http://images/pic.png".toList (.str "dist".toList)
      = "http://images/pic.png".toList ∧
    find (.mapping picMapping) "//cdn://images/pic.png".toList (.str "dist".toList)
      = "//cdn://images/pic.png".toList ∧
    "/images/pic.png".toList.head? = some '/' ∧
    find (.mapping picMapping) "/images/pic.png".toList (.str "dist".toList)
      = "/images/pic.png".toList.takeWhile (fun x => x = '/') ++ "images/2123.pic.png".toList ∧
    find (.mapping picMapping) "/images/logo.png".toList (.str "dist".toList)
      = "/images/logo.png".toList :=
  ⟨(find_absolute_unchanged_iff (.mapping picMapping) "http://images/pic.png".toList
      (.str "dist".toList)).1 ⟨"http".toList, "images/pic.png".toList, by decide⟩,
   (find_absolute_unchanged_iff (.mapping picMapping) "//cdn://images/pic.png".toList
      (.str "dist".toList)).1 ⟨"//cdn".toList, "images/pic.png".toList, by decide⟩,
   by decide,
   ((find_absolute_unchanged_iff (.mapping picMapping) "/images/pic.png".toList
      (.str "dist".toList)).2 (by decide)
      (fun h => by have := (matchScheme_iff _).2 h; revert this; decide)).2
      "images/2123.pic.png".toList (by decide) (by decide),
   (((find_absolute_unchanged_iff (.mapping picMapping) "/images/logo.png".toList
      (.str "dist".toList)).2 (by decide)
      (fun h => by have := (matchScheme_iff _).2 h; revert this; decide)).1).2
      (fun c hc => by
        have hnone : (getRevvedCandidates (.mapping picMapping)
            ("/images/logo.png".toList.dropWhile (fun x => x = '/'))
            (searchPathsOf (.str "dist".toList))).head? = none := by decide
        rw [hnone] at hc
        cases hc)⟩

/-- C14: `regexpQuote(s)` is `s` with one backslash put in front of each occurrence
of one of the characters `. ? * + ^ $ [ ] \ ( ) { } | -` and nothing else changed
(character by character, and in length); reading the escapes back gives `s`, so
that the pattern built from a basename accepts exactly the paths that end with
hexadecimal digits, a dot and that basename taken literally. -/
theorem regexpQuote_spec (s : Str) :
    (∀ c : Char, c ∈ regexpSpecial ↔
      c = '.' ∨ c = '?' ∨ c = '*' ∨ c = '+' ∨ c = '^' ∨ c = '$' ∨ c = '[' ∨ c = ']' ∨
      c = '\\' ∨ c = '(' ∨ c = ')' ∨ c = '\x7b' ∨ c = '\x7d' ∨ c = '|' ∨ c = '-') ∧
    regexpQuote [] = [] ∧
    (∀ (c : Char) (t : Str), regexpQuote (c :: t)
      = if c ∈ regexpSpecial then '\\' :: c :: regexpQuote t else c :: regexpQuote t) ∧
    (regexpQuote s).length = s.length + s.countP (fun c => decide (c ∈ regexpSpecial)) ∧
    literalOfPattern (regexpQuote s) = some s ∧
    (∀ g : Str, revvedRx s g = true ↔ LooksRevved s g) ∧
    revvedRx "style.css".toList "9f.style.css".toList = true ∧
    revvedRx "style.css".toList "9f.styleXcss".toList = false := by
  have hcons : ∀ (c : Char) (t : Str), regexpQuote (c :: t)
      = if c ∈ regexpSpecial then '\\' :: c :: regexpQuote t else c :: regexpQuote t := by
    intro c t
    by_cases hc : c ∈ regexpSpecial <;> simp [regexpQuote, List.flatMap, hc]
  refine ⟨fun c => by simp [regexpSpecial], rfl, hcons, ?_, literalOfPattern_regexpQuote s,
    fun g => revvedRx_iff s g, by decide, by decide⟩
  induction s with
  | nil => rfl
  | cons c t ih =>
    rw [hcons]
    by_cases hc : c ∈ regexpSpecial
    · simp [hc, ih, List.countP_cons]; omega
    · simp [hc, ih, List.countP_cons]; omega

/-- C15, as stated, fails for an absolute reference: the keys computed from the
reference itself coincide for the search directories `""` and `"/"`, but the
lookup uses the reference without its leading separator, whose keys differ. -/
theorem find_mapping_key_of_absolute :
    normalize (join [[], "/pic.png".toList]) = normalize (join [['/'], "/pic.png".toList]) ∧
    find (.mapping cwdMapping) "/pic.png".toList (.str []) = "/./2123.pic.png".toList ∧
    find (.mapping cwdMapping) "/pic.png".toList (.str ['/']) = "/pic.png".toList ∧
    find (.mapping cwdMapping) "/pic.png".toList (.str [])
      ≠ find (.mapping cwdMapping) "/pic.png".toList (.str ['/']) := by
  decide

/-- C15, amended: the mapping is looked up at the normalized key of the reference
without its leading separators (the reference itself when it does not start with
`/`): two search directories that give this key the same value give the same
result of `find` in mapping mode. -/
theorem find_mapping_same_key (m : Str → Option Str) (f sp1 sp2 : Str)
    (hkey : normalize (join [sp1, f.dropWhile (fun c => c = '/')])
      = normalize (join [sp2, f.dropWhile (fun c => c = '/')])) :
    find (.mapping m) f (.str sp1) = find (.mapping m) f (.str sp2) := by
  have hc : getRevvedCandidates (.mapping m) (f.dropWhile (fun c => c = '/'))
        (searchPathsOf (.str sp1))
      = getRevvedCandidates (.mapping m) (f.dropWhile (fun c => c = '/'))
        (searchPathsOf (.str sp2)) := by
    show getCandidatesFromMapping m _ [sp1] = getCandidatesFromMapping m _ [sp2]
    rw [getCandidatesFromMapping_single, getCandidatesFromMapping_single, hkey]
  rw [find_eq, find_eq, hc]

/-- Instance of the amended C15: `..` in the reference is resolved against the
search directory for the lookup, `dist/css` and `dist/js` give the same key, and
the returned path keeps the `..` segment. -/
theorem find_mapping_same_key_witness :
    normalize (join ["dist/css".toList, "../images/pic.png".toList])
      = "dist/images/pic.png".toList ∧
    find (.mapping picMapping) "../images/pic.png".toList (.str "dist/css".toList)
      = find (.mapping picMapping) "../images/pic.png".toList (.str "dist/js".toList) ∧
    find (.mapping picMapping) "../images/pic.png".toList (.str "dist/css".toList)
      = "../images/2123.pic.png".toList :=
  ⟨by decide, find_mapping_same_key picMapping _ _ _ (by decide), by decide⟩

/-- C13, as stated, fails: the filter tests the whole path, not its basename.  The
basename of `dist/9f8a.style.css/` matches the pattern for `style.css`, but the
path, which ends with a separator, contributes no candidate. -/
theorem fs_filter_trailing_slash :
    dirExpand (searchString "dist".toList "style.css".toList)
      = ["dist/9f8a.style.css/".toList] ∧
    LooksRevved (basename "style.css".toList) (basename "dist/9f8a.style.css/".toList) ∧
    getCandidatesFromFS dirExpand "style.css".toList ["dist".toList] = [] ∧
    find (.expandfn dirExpand) "style.css".toList (.str "dist".toList)
      = "style.css".toList :=
  ⟨rfl, ⟨[], "9f8a".toList, by decide, by decide, by decide⟩, by decide, by decide⟩

/-- C13, amended: in filesystem mode a path `g` returned by the expand function
contributes a candidate if and only if `g` itself ends with one or more
hexadecimal digits, a dot and the basename `b` of the file; the basename of such
a path matches too, and for a path that does not end with `/` the two tests
coincide.  Consequently the final segment of every filesystem-mode result of
`find` that differs from the reference ends with a hexadecimal digit, a dot and
the basename of the reference. -/
theorem fs_filter_spec (e : Str → List Str) (file sp : Str) :
    (∀ (before after : List Str) (g : Str),
      e (searchString sp file) = before ++ g :: after →
      (LooksRevved (basename file) g →
        getCandidatesFromFS e file [sp]
          = getCandidatesFromFS (fun _ => before) file [sp]
            ++ (if '/' ∉ file then basename g else dirname file ++ '/' :: basename g)
              :: getCandidatesFromFS (fun _ => after) file [sp]) ∧
      (¬ LooksRevved (basename file) g →
        getCandidatesFromFS e file [sp]
          = getCandidatesFromFS (fun _ => before) file [sp]
            ++ getCandidatesFromFS (fun _ => after) file [sp])) ∧
    (∀ g : Str, LooksRevved (basename file) g → LooksRevved (basename file) (basename g)) ∧
    (∀ g : Str, g.getLast? ≠ some '/' → LooksRevved (basename file) (basename g) →
      LooksRevved (basename file) g) ∧
    (∀ (ofile : Str) (sd : SearchDirs), find (.expandfn e) ofile sd ≠ ofile →
      LooksRevved (basename ofile) (basename (find (.expandfn e) ofile sd))) := by
  refine ⟨?_, ?_, ?_, ?_⟩
  · intro before after g hexp
    simp only [getCandidatesFromFS_single, hexp, List.filter_append, List.filter_cons,
      List.map_append]
    constructor
    · intro hg
      rw [if_pos ((revvedRx_iff _ _).2 hg)]
      rfl
    · intro hg
      rw [if_neg (fun h => hg ((revvedRx_iff _ _).1 h))]
  · intro g hg
    exact LooksRevved_basename _ g (slash_not_mem_basename file) hg
  · intro g hlast hg
    obtain ⟨d, hd⟩ := eq_append_basename g hlast
    obtain ⟨pre, hs, hne, hall, hb⟩ := hg
    refine ⟨d ++ pre, hs, hne, hall, ?_⟩
    conv_lhs => rw [hd, hb]
    simp
  · intro ofile sd hdiff
    rw [find_eq] at hdiff ⊢
    split at hdiff
    · exact absurd rfl hdiff
    · rename_i hcond
      rw [if_neg hcond]
      cases hc : (getRevvedCandidates (.expandfn e) (ofile.dropWhile (fun c => c = '/'))
          (searchPathsOf sd)).head? with
      | none => rw [hc] at hdiff; exact absurd rfl hdiff
      | some fp =>
        rw [hc] at hdiff
        by_cases hfp : fp = []
        · simp [hfp] at hdiff
        · simp only [hfp, if_false]
          have hmem : fp ∈ getCandidatesFromFS e (ofile.dropWhile (fun c => c = '/'))
              (searchPathsOf sd) := List.mem_of_mem_head? hc
          rw [getCandidatesFromFS_eq_flatMap, List.mem_flatMap] at hmem
          obtain ⟨d, _, hd⟩ := hmem
          rw [getCandidatesFromFS_single, List.mem_map] at hd
          obtain ⟨g, hg, hfmt⟩ := hd
          have hrev : LooksRevved (basename (ofile.dropWhile (fun c => c = '/'))) g :=
            (revvedRx_iff _ _).1 (List.mem_filter.1 hg).2
          have hbase := LooksRevved_basename _ g (slash_not_mem_basename _) hrev
          rw [basename_dropWhile_slash] at hbase
          have hx : basename g ≠ [] := by
            obtain ⟨pre, hs, _, _, hb⟩ := hbase
            rw [hb]; simp
          have hslashes : ∀ c ∈ ofile.takeWhile (fun c => decide (c = '/')), c = '/' := by
            intro c hcm
            simpa using List.mem_takeWhile_imp hcm
          have hres : basename (ofile.takeWhile (fun c => decide (c = '/')) ++ fp)
              = basename g := by
            rw [← hfmt]
            by_cases hseg : '/' ∈ ofile.dropWhile (fun c => decide (c = '/'))
            · rw [if_neg (not_not.2 hseg), ← List.append_assoc]
              exact basename_append_segment _ _ hx (slash_not_mem_basename g)
            · rw [if_pos hseg, basename_slashes_append _ _ hslashes]
              exact basename_of_no_slash _ (slash_not_mem_basename g)
          rw [hres]
          exact hbase

/-- Instance of the amended C13: of the three files listed for `dist`, the first
does not look revved and the second does, and the result of `find` ends with
hexadecimal digits, a dot and the basename of the reference. -/
theorem fs_filter_spec_witness :
    find (.expandfn treeExpand) "/images/pic.png".toList (.str "dist".toList)
      = "/images/b2.pic.png".toList ∧
    LooksRevved (basename "/images/pic.png".toList)
      (basename (find (.expandfn treeExpand) "/images/pic.png".toList (.str "dist".toList))) :=
  ⟨by decide,
   (fs_filter_spec treeExpand "images/pic.png".toList "dist".toList).2.2.2
     "/images/pic.png".toList (.str "dist".toList) (by decide)⟩

/-- C16: the two discovery modes agree on multi-segment references.  For a relative
reference `f` that contains `/`, does not end with `/` and does not contain
`://`, a search directory `sp` and a non-empty hexadecimal string `h`, let
`R = join(sp, dirname(f), h + "." + basename(f))`.  The finder built from the
mapping `{normalize(join(sp, f)): R}` and a finder built from an expand function
that returns `[R]` for the pattern `join(sp, dirname(f), "*." + basename(f))`
both return `dirname(f) + "/" + h + "." + basename(f)` from `find(f, sp)`. -/
theorem find_modes_agree (f sp h : Str) (e : Str → List Str)
    (hne : f ≠ []) (hrel : f.head? ≠ some '/') (hdir : '/' ∈ f)
    (_hend : f.getLast? ≠ some '/') (hext : ¬ [':', '/', '/'] <:+: f)
    (hh : h ≠ []) (hhex : ∀ c ∈ h, isHexDigit c = true)
    (he : e (join [sp, dirname f, '*' :: '.' :: basename f])
      = [join [sp, dirname f, h ++ '.' :: basename f]]) :
    find (.mapping (mappingOf
        [(normalize (join [sp, f]), join [sp, dirname f, h ++ '.' :: basename f])]))
      f (.str sp) = dirname f ++ '/' :: (h ++ '.' :: basename f) ∧
    find (.expandfn e) f (.str sp) = dirname f ++ '/' :: (h ++ '.' :: basename f) ∧
    find (.mapping (mappingOf
        [(normalize (join [sp, f]), join [sp, dirname f, h ++ '.' :: basename f])]))
      f (.str sp) = find (.expandfn e) f (.str sp) := by
  obtain ⟨hRne, hRbase, hRrev⟩ := revved_join_facts sp f h hh hhex
  have hm := matchScheme_eq_false f hext
  obtain ⟨hd, ht⟩ := dropWhile_slash_of_head f hrel
  have hmap : find (.mapping (mappingOf
        [(normalize (join [sp, f]), join [sp, dirname f, h ++ '.' :: basename f])]))
      f (.str sp) = dirname f ++ '/' :: (h ++ '.' :: basename f) := by
    have hc : (getRevvedCandidates (.mapping (mappingOf
          [(normalize (join [sp, f]), join [sp, dirname f, h ++ '.' :: basename f])]))
        (f.dropWhile (fun c => c = '/')) (searchPathsOf (.str sp))).head?
        = some (dirname f ++ '/' :: (h ++ '.' :: basename f)) := by
      rw [hd]
      show (getCandidatesFromMapping _ f [sp]).head? = _
      rw [getCandidatesFromMapping_single]
      simp [mappingOf, List.lookup, hRne, hRbase]
    rw [find_of_candidate _ _ _ _ hm hne hc (by simp), ht]
    rfl
  have hfs : find (.expandfn e) f (.str sp)
      = dirname f ++ '/' :: (h ++ '.' :: basename f) := by
    have hc : (getRevvedCandidates (.expandfn e) (f.dropWhile (fun c => c = '/'))
        (searchPathsOf (.str sp))).head?
        = some (dirname f ++ '/' :: (h ++ '.' :: basename f)) := by
      rw [hd]
      show (getCandidatesFromFS e f [sp]).head? = _
      rw [getCandidatesFromFS_head e f sp _ [] [] he
        (fun _ hg => absurd hg (List.not_mem_nil _)) hRrev, hRbase]
      simp [hdir]
    rw [find_of_candidate _ _ _ _ hm hne hc (by simp), ht]
    rfl
  exact ⟨hmap, hfs, hmap.trans hfs.symm⟩

/-- Instance of C16: `images/pic.png` under `dist` with the hash `2123`. -/
theorem find_modes_agree_witness :
    join ["dist".toList, dirname "images/pic.png".toList,
      "2123".toList ++ '.' :: basename "images/pic.png".toList]
      = "dist/images/2123.pic.png".toList ∧
    find (.mapping (mappingOf
        [(normalize (join ["dist".toList, "images/pic.png".toList]),
          join ["dist".toList, dirname "images/pic.png".toList,
            "2123".toList ++ '.' :: basename "images/pic.png".toList])]))
      "images/pic.png".toList (.str "dist".toList)
      = find (.expandfn (fun _ => ["dist/images/2123.pic.png".toList]))
          "images/pic.png".toList (.str "dist".toList) ∧
    find (.expandfn (fun _ => ["dist/images/2123.pic.png".toList]))
      "images/pic.png".toList (.str "dist".toList) = "images/2123.pic.png".toList :=
  ⟨by decide,
   (find_modes_agree "images/pic.png".toList "dist".toList "2123".toList
      (fun _ => ["dist/images/2123.pic.png".toList]) (by decide) (by decide) (by decide)
      (by decide) (fun h => by have := (matchScheme_iff _).2 h; revert this; decide)
      (by decide) (by decide) (by decide)).2.2,
   by decide⟩

end RevvedFinder
